import Mathlib

/-!
Verification of the agri-trace-grid authenticated append-only ledger core
(`src/services/merkleTree.ts`, `src/utils/crypto.ts`, and the batch
verification route) against its natural-language specification.

Modelling conventions:
* SHA-256 is modelled as a collision-free (injective) digest: `Digest.ofString s`
  stands for the hex digest `sha256(s)` of a raw string, and `Digest.comb l r`
  stands for `sha256(hexOf l ++ hexOf r)`, the `combineHashes` step of the
  source.  The free constructors encode the standard idealization that no
  collisions occur between any of the inputs actually hashed.
* JavaScript objects are modelled by a first-order JSON syntax tree whose
  object fields keep insertion order, exactly the information
  `JSON.stringify` consumes.
* The Mongo collection of Merkle leaves is modelled as a list of stored
  leaves kept in index order (the source always reads it sorted by index).
-/

/-- Digest values: `ofString s` is sha256 of the raw string `s`;
`comb l r` is sha256 of the concatenation of the two hex digests,
i.e. the source's `combineHashes`.  Injectivity of the constructors is the
collision-freeness idealization of SHA-256. -/
inductive Digest where
  | ofString : String → Digest
  | comb : Digest → Digest → Digest
deriving DecidableEq, Repr

/-- Source `MerkleTreeService.combineHashes(left, right) = hash(left + right)`. -/
def combineHashes (left right : Digest) : Digest :=
  Digest.comb left right

-- JSON values as JavaScript sees them: object fields are kept in insertion
-- order (`JsonFields` is an ordered association list).
mutual
inductive Json where
  | str : String → Json
  | num : Int → Json
  | bool : Bool → Json
  | null : Json
  | arr : JsonList → Json
  | obj : JsonFields → Json

inductive JsonList where
  | nil : JsonList
  | cons : Json → JsonList → JsonList

inductive JsonFields where
  | nil : JsonFields
  | cons : String → Json → JsonFields → JsonFields
end

/-- Quote a JSON string literal.  (String escaping is not modelled; the keys
and values used in this development contain no characters needing escapes.) -/
def jsQuote (s : String) : String :=
  "\"" ++ s ++ "\""

-- Plain `JSON.stringify(value)` (no replacer): serializes object fields in
-- insertion order.  This is what `MerkleTreeService.appendLeaf` hashes.
mutual
def jsonStringify : Json → String
  | .str s => jsQuote s
  | .num n => toString n
  | .bool b => if b then "true" else "false"
  | .null => "null"
  | .arr xs => "[" ++ stringifyList xs ++ "]"
  | .obj fs => "\x7b" ++ stringifyFields fs ++ "\x7d"

def stringifyList : JsonList → String
  | .nil => ""
  | .cons x .nil => jsonStringify x
  | .cons x (.cons y ys) => jsonStringify x ++ "," ++ stringifyList (.cons y ys)

def stringifyFields : JsonFields → String
  | .nil => ""
  | .cons k v .nil => jsQuote k ++ ":" ++ jsonStringify v
  | .cons k v (.cons k2 v2 fs) =>
      jsQuote k ++ ":" ++ jsonStringify v ++ "," ++ stringifyFields (.cons k2 v2 fs)
end

/-- Field lookup in an object, first occurrence wins (JavaScript property
access; JS objects cannot actually hold duplicate keys). -/
def lookupField : JsonFields → String → Option Json
  | .nil, _ => none
  | .cons k v fs, key => if key = k then some v else lookupField fs key

/-- Keys of an object in insertion order (`Object.keys`). -/
def keysOf : JsonFields → List String
  | .nil => []
  | .cons k _ fs => k :: keysOf fs

/-- The leaf hash computed by `appendLeaf`:
`sha256(JSON.stringify(leafData))` — note: no key sorting. -/
def appendLeafHash (leafData : Json) : Digest :=
  Digest.ofString (jsonStringify leafData)

/-- One pass of the level loop inside `calculateRootAndProof`: walks the
current level two slots at a time (loop variable `i` is the absolute
position), returning the next level and the sibling hashes pushed onto the
proof during this pass.  In the two-or-more case the source guard
`sibling !== left || i + 1 < currentLevel.length` is true whenever
`sibling ≠ left` fails only together with an in-range right neighbour, i.e.
the push happens unless the node is the lone duplicated last element: there
`right = left`, the guard is false, and nothing is pushed. -/
def levelPass : List Digest → Nat → Nat → List Digest × List Digest
  | [], _, _ => ([], [])
  | [left], currentIndex, i =>
      -- odd last element: `right = left` (duplication); `i + 1 < length` is
      -- false here and `sibling = left`, so the source pushes nothing.
      ([combineHashes left left], if i = currentIndex ∨ i + 1 = currentIndex then [] else [])
  | left :: right :: rest, currentIndex, i =>
      let tail := levelPass rest currentIndex (i + 2)
      let pushed : List Digest :=
        if i = currentIndex ∨ i + 1 = currentIndex then
          -- `i + 1 < currentLevel.length` holds at a genuine pair, so the
          -- guard is true and the sibling is pushed.
          [if i = currentIndex then right else left]
        else []
      (combineHashes left right :: tail.1, pushed ++ tail.2)

/-- The `while (currentLevel.length > 1)` loop of `calculateRootAndProof`,
expressed with explicit fuel (each pass at least halves the level's length,
so fuel equal to the initial length always suffices). -/
def treeLoopFuel : Nat → List Digest → Nat → List Digest → Digest × List Digest
  | 0, level, _, acc => (level.headD (Digest.ofString ""), acc)
  | fuel + 1, level, currentIndex, acc =>
      if level.length ≤ 1 then (level.headD (Digest.ofString ""), acc)
      else
        let step := levelPass level currentIndex 0
        treeLoopFuel fuel step.1 (currentIndex / 2) (acc ++ step.2)

/-- Source `MerkleTreeService.calculateRootAndProof(leafIndex, leafHash)`:
`allHashes` is the stored hash list in index order; the JS assignment
`hashes[leafIndex] = leafHash` appends when `leafIndex` equals the current
length (the only case `appendLeaf` exercises) and overwrites otherwise. -/
def calculateRootAndProof (allHashes : List Digest) (leafIndex : Nat) (leafHash : Digest) :
    Digest × List Digest :=
  let hashes :=
    if leafIndex = allHashes.length then allHashes ++ [leafHash]
    else allHashes.set leafIndex leafHash
  if hashes.length = 0 then (leafHash, [])
  else if hashes.length = 1 then (hashes.headD leafHash, [])
  else treeLoopFuel hashes.length hashes leafIndex []

/-- Leaf type tag of the source (`'batch' | 'event' | 'anchor'`). -/
inductive LeafKind where
  | batch : LeafKind
  | event : LeafKind
  | anchor : LeafKind
deriving DecidableEq, Repr

/-- A stored `MerkleLeaf` document. -/
structure StoredLeaf where
  index : Nat
  hash : Digest
  data : Json
  batch_id : Option String
  event_id : Option String
  kind : LeafKind
  root_hash : Digest
  proof : List Digest

/-- The value returned by `appendLeaf`. -/
structure AppendResult where
  index : Nat
  root : Digest
  leaf : Digest
deriving DecidableEq, Repr

/-- Source `MerkleTreeService.updateRootForAllLeaves(newRoot)`:
`MerkleLeaf.updateMany({}, { root_hash: newRoot })` overwrites the stored
root of every leaf (proofs are left untouched). -/
def updateRootForAllLeaves (ledger : List StoredLeaf) (newRoot : Digest) : List StoredLeaf :=
  ledger.map (fun l => { l with root_hash := newRoot })

/-- Source `MerkleTreeService.appendLeaf` under serial execution: the ledger
list is the leaf collection in index order; `findOne().sort({index:-1})` is
its last element. -/
def appendLeaf (ledger : List StoredLeaf) (leafData : Json) (kind : LeafKind)
    (batchId eventId : Option String) : List StoredLeaf × AppendResult :=
  let leafHash := appendLeafHash leafData
  let newIndex :=
    match ledger.getLast? with
    | some lastLeaf => lastLeaf.index + 1
    | none => 0
  let rp := calculateRootAndProof (ledger.map (·.hash)) newIndex leafHash
  let newLeaf : StoredLeaf :=
    { index := newIndex, hash := leafHash, data := leafData, batch_id := batchId,
      event_id := eventId, kind := kind, root_hash := rp.1, proof := rp.2 }
  (updateRootForAllLeaves (ledger ++ [newLeaf]) rp.1, { index := newIndex, root := rp.1, leaf := leafHash })

/-- The `MerkleProof` record returned by `getProof`. -/
structure MerkleProof where
  leaf : Digest
  proof : List Digest
  leafIndex : Nat
  root : Digest
deriving DecidableEq, Repr

/-- Source `MerkleTreeService.getProof(leafIndex)`. -/
def getProof (ledger : List StoredLeaf) (leafIndex : Nat) : Option MerkleProof :=
  match ledger.find? (fun l => l.index == leafIndex) with
  | none => none
  | some l => some { leaf := l.hash, proof := l.proof, leafIndex := l.index, root := l.root_hash }

/-- The verification loop of `MerkleTreeService.verifyProof`: fold the
sibling list, combining on the left or right according to the parity of the
running index, which is halved after each step. -/
def verifyChain : Digest → Nat → List Digest → Digest
  | computed, _, [] => computed
  | computed, i, p :: ps =>
      verifyChain (if i % 2 = 0 then combineHashes computed p else combineHashes p computed)
        (i / 2) ps

/-- Source `MerkleTreeService.verifyProof(leaf, proof, leafIndex, root)`. -/
def verifyProof (leaf : Digest) (siblings : List Digest) (leafIndex : Nat) (root : Digest) : Bool :=
  verifyChain leaf leafIndex siblings == root

/-- Run a sequence of serial `appendLeaf` calls starting from a given ledger,
collecting each call's returned result. -/
def runAppendsFrom (ledger : List StoredLeaf) : List Json → List StoredLeaf × List AppendResult
  | [] => (ledger, [])
  | d :: ds =>
      let step := appendLeaf ledger d LeafKind.batch none none
      let rest := runAppendsFrom step.1 ds
      (rest.1, step.2 :: rest.2)

/-- Run a sequence of serial `appendLeaf` calls on an empty ledger. -/
def runAppends (datas : List Json) : List StoredLeaf × List AppendResult :=
  runAppendsFrom [] datas

/-- Lexicographic comparison of character lists by code point — the order
JavaScript's default string comparison uses (UTF-16 code units; identical
for the ASCII keys in play). -/
def charsLe : List Char → List Char → Bool
  | [], _ => true
  | _ :: _, [] => false
  | c :: cs, d :: ds =>
      if c.toNat < d.toNat then true
      else if d.toNat < c.toNat then false
      else charsLe cs ds

/-- Lexicographic string comparison (JavaScript's `a <= b` on strings). -/
def strLe (a b : String) : Bool :=
  charsLe a.data b.data

/-- String-key insertion step used to model JavaScript's lexicographic
`Array.prototype.sort()` on key lists. -/
def insertKey (k : String) : List String → List String
  | [] => [k]
  | k2 :: ks => if strLe k k2 then k :: k2 :: ks else k2 :: insertKey k ks

/-- Insertion sort on string keys: models `Object.keys(data).sort()`
(lexicographic; the keys in play are ASCII, where JS UTF-16 order and
Lean's string order agree). -/
def jsSort : List String → List String
  | [] => []
  | k :: ks => insertKey k (jsSort ks)

/-- Index key strings `"0", "1", ...` that `Object.keys` yields on arrays. -/
def indexKeysFrom : Nat → JsonList → List String
  | _, .nil => []
  | i, .cons _ xs => toString i :: indexKeysFrom (i + 1) xs

/-- Top-level own-property keys of a value (`Object.keys(data)`). -/
def topKeys : Json → List String
  | .obj fs => keysOf fs
  | .arr xs => indexKeysFrom 0 xs
  | .str _ => []
  | .num _ => []
  | .bool _ => []
  | .null => []

/-- Lookup in an already-serialized field list (first occurrence wins). -/
def pairsLookup : List (String × String) → String → Option String
  | [], _ => none
  | (k, sv) :: ps, key => if key = k then some sv else pairsLookup ps key

/-- Emit the members of an object under a replacer `PropertyList`: iterate
the allow-list in order, emitting `"key":value` for each key the object
holds, joined by commas — the ECMA-262 `SerializeJSONObject` semantics for
`JSON.stringify(value, propertyArray)`. -/
def joinSel (allow : List String) (pairs : List (String × String)) : String :=
  String.intercalate ","
    (allow.filterMap (fun k => (pairsLookup pairs k).map (fun sv => jsQuote k ++ ":" ++ sv)))

-- `JSON.stringify(value, allow)` with a replacer array `allow`: arrays keep
-- all their elements; objects emit only the allow-listed keys, in allow-list
-- order, at every nesting level.  (`selFields` pre-serializes every field;
-- discarding the non-emitted ones afterwards is observationally the same as
-- the ECMA semantics, which serializes only emitted members.)
mutual
def stringifySel (allow : List String) : Json → String
  | .str s => jsQuote s
  | .num n => toString n
  | .bool b => if b then "true" else "false"
  | .null => "null"
  | .arr xs => "[" ++ String.intercalate "," (selList allow xs) ++ "]"
  | .obj fs => "\x7b" ++ joinSel allow (selFields allow fs) ++ "\x7d"

def selList (allow : List String) : JsonList → List String
  | .nil => []
  | .cons x xs => stringifySel allow x :: selList allow xs

def selFields (allow : List String) : JsonFields → List (String × String)
  | .nil => []
  | .cons k v fs => (k, stringifySel allow v) :: selFields allow fs
end

/-- Source `hashData(data)` of `src/utils/crypto.ts`:
strings are hashed directly; anything else is hashed as
`JSON.stringify(data, Object.keys(data).sort())`. -/
def hashData : Json → Digest
  | .str s => Digest.ofString s
  | j => Digest.ofString (stringifySel (jsSort (topKeys j)) j)

/-- The input fields `createBatchHash` projects out of its argument. -/
structure BatchData where
  batch_id : Json
  farmer_id : Json
  crop : Json
  location : Json
  metadata : Json
  timestamp : Option Json

/-- Source `createBatchHash(batchData)`: builds the canonical six-field
object (falling back to the current ISO timestamp `nowIso` when the record
has none) and hashes it with `hashData`. -/
def createBatchHash (b : BatchData) (nowIso : Json) : Digest :=
  hashData (Json.obj (.cons "batch_id" b.batch_id (.cons "farmer_id" b.farmer_id
    (.cons "crop" b.crop (.cons "location" b.location (.cons "metadata" b.metadata
      (.cons "timestamp" (b.timestamp.getD nowIso) .nil)))))))

/-- Insert a field into a key-sorted field list (before any key ≥ its own). -/
def insertField (k : String) (v : Json) : JsonFields → JsonFields
  | .nil => .cons k v .nil
  | .cons k2 v2 fs =>
      if strLe k k2 then .cons k v (.cons k2 v2 fs) else .cons k2 v2 (insertField k v fs)

-- Canonical form of a JSON value: every object's fields sorted by key,
-- recursively.  Two records have identical key/value sets (at every nesting
-- level, up to insertion order) exactly when their canonical forms coincide.
mutual
def canonJson : Json → Json
  | .str s => .str s
  | .num n => .num n
  | .bool b => .bool b
  | .null => .null
  | .arr xs => .arr (canonList xs)
  | .obj fs => .obj (canonFields fs)

def canonList : JsonList → JsonList
  | .nil => .nil
  | .cons x xs => .cons (canonJson x) (canonList xs)

def canonFields : JsonFields → JsonFields
  | .nil => .nil
  | .cons k v fs => insertField k (canonJson v) (canonFields fs)
end

/-- Order of the secp256k1 group (the bound `secp256k1.privateKeyVerify`
checks a 32-byte scalar against). -/
def curveOrder : Nat :=
  115792089237316195423570985008687907852837564279074904382605163141518161494337

/-- Modelled from the spec: `secp256k1.privateKeyVerify` of the native
library (not part of this repository) accepts exactly the scalars in the
valid range `0 < k < n` of the curve. -/
def privateKeyVerify (k : Nat) : Bool :=
  decide (0 < k) && decide (k < curveOrder)

/-- Modelled from the spec: `secp256k1.publicKeyCreate` (scalar
multiplication by the base point, not part of this repository) is an
injective map from valid private scalars to public keys; the identity map
is an adequate stand-in for the properties proved here. -/
def publicKeyCreate (k : Nat) : Nat := k

/-- Signature wire values offered to `verifySignature`: either a structurally
valid ideal ECDSA signature, determined by the signed message hash and the
signer's public key, or malformed bytes (bad hex, wrong length, invalid
curve point) that the native library rejects. -/
inductive SigW where
  | good : Digest → Nat → SigW
  | malformed : String → SigW
deriving DecidableEq, Repr

/-- Public-key wire values offered to `verifySignature`: a valid key or
malformed bytes. -/
inductive PubW where
  | good : Nat → PubW
  | malformed : String → PubW
deriving DecidableEq, Repr

/-- Source `generateKeyPair` of `src/utils/crypto.ts`: draw 32-byte randoms
until `privateKeyVerify` accepts one, then derive the public key.  The
candidate stream of `crypto.randomBytes(32)` draws is passed explicitly. -/
def generateKeyPair : List Nat → Option (Nat × Nat)
  | [] => none
  | c :: cs =>
      if privateKeyVerify c then some (c, publicKeyCreate c) else generateKeyPair cs

/-- Source `signData(data, privateKey)`: throws on an invalid private key
(modelled as `Except.error`), otherwise signs `sha256(data)`; the ideal
signature records the signed hash and the signer's public key. -/
def signData (data : String) (privateKey : Nat) : Except String SigW :=
  if privateKeyVerify privateKey then
    Except.ok (SigW.good (Digest.ofString data) (publicKeyCreate privateKey))
  else Except.error "Invalid private key"

/-- Modelled from the spec: `secp256k1.ecdsaVerify` (not part of this
repository) throws on malformed signature or key material and otherwise
accepts exactly the signature produced for this message hash by the holder
of the matching private key (ideal existential unforgeability). -/
def ecdsaVerify (sig : SigW) (msgHash : Digest) (pubKey : PubW) : Except Unit Bool :=
  match sig, pubKey with
  | SigW.good h p, PubW.good q => Except.ok (h == msgHash && p == q)
  | _, _ => Except.error ()

/-- Source `verifySignature(data, signature, publicKey)`: hashes the data,
calls the library verifier, and converts any thrown error to `false`
through its catch-all handler. -/
def verifySignature (data : String) (sig : SigW) (pubKey : PubW) : Bool :=
  match ecdsaVerify sig (Digest.ofString data) pubKey with
  | Except.ok b => b
  | Except.error _ => false

/-- Result modes of the verification route (`'merkle' | 'both'`). -/
inductive VerifyMode where
  | merkle : VerifyMode
  | both : VerifyMode
deriving DecidableEq, Repr

/-- The `VerificationResult` fields the route fills in. -/
structure RouteResult where
  verified : Bool
  mode : VerifyMode
  reason : String
deriving DecidableEq, Repr

/-- Source `verifyBlockchainAnchor(batch)`: returns `!!batch.blockchain_tx`,
with every thrown error caught and turned into `false`; the argument models
the attempted read of the anchor transaction reference (`Except.error`
standing for an exception from the oracle lookup). -/
def verifyBlockchainAnchor (anchorTx : Except Unit (Option String)) : Bool :=
  match anchorTx with
  | Except.ok (some _) => true
  | Except.ok none => false
  | Except.error _ => false

/-- The `router.post('/')` verification route of the batch-verify endpoint,
as a function of the outcomes of its sequential checks: batch lookup, QR
signature check (run only when a QR payload was supplied), Merkle inclusion
check, and the anchor lookup. -/
def verifyRoute (batchFound qrSupplied sigValid merkleValid : Bool)
    (anchorTx : Except Unit (Option String)) : RouteResult :=
  if !batchFound then
    { verified := false, mode := VerifyMode.merkle, reason := "Batch not found in database" }
  else if qrSupplied && !sigValid then
    { verified := false, mode := VerifyMode.merkle, reason := "Invalid QR signature" }
  else if !merkleValid then
    { verified := false, mode := VerifyMode.merkle, reason := "Merkle proof verification failed" }
  else if verifyBlockchainAnchor anchorTx then
    { verified := true, mode := VerifyMode.both,
      reason := "Verified through both Merkle tree and blockchain anchor" }
  else
    { verified := true, mode := VerifyMode.merkle,
      reason := "Verified through Merkle tree (blockchain anchor pending or unavailable)" }

lemma verifyChain_inj (ps : List Digest) :
    ∀ (i : Nat) (a b : Digest), verifyChain a i ps = verifyChain b i ps → a = b := by
  induction ps with
  | nil => intro i a b h; simpa [verifyChain] using h
  | cons p ps ih =>
      intro i a b h
      simp only [verifyChain] at h
      by_cases hp : i % 2 = 0
      · simp only [hp, if_pos rfl] at h
        have := ih (i / 2) _ _ h
        simpa [combineHashes] using this
      · simp only [if_neg hp] at h
        have := ih (i / 2) _ _ h
        simpa [combineHashes] using this

lemma verifyChain_set_ne (ps : List Digest) :
    ∀ (j : Nat) (hj : j < ps.length) (s2 : Digest), s2 ≠ ps.get ⟨j, hj⟩ →
      ∀ (a : Digest) (i : Nat), verifyChain a i (ps.set j s2) ≠ verifyChain a i ps := by
  induction ps with
  | nil => intro j hj; exact absurd hj (by simp)
  | cons p ps ih =>
      intro j hj s2 hs a i
      cases j with
      | zero =>
          intro h
          simp only [List.set, verifyChain] at h
          have hc := verifyChain_inj ps (i / 2) _ _ h
          by_cases hp : i % 2 = 0
          · simp only [hp, if_pos rfl, combineHashes] at hc
            injection hc with h1 h2
            exact hs (by simpa using h2)
          · simp only [if_neg hp, combineHashes] at hc
            injection hc with h1 h2
            exact hs (by simpa using h1)
      | succ j =>
          intro h
          simp only [List.set, verifyChain] at h
          exact ih j (by simpa using hj) s2 (by simpa using hs) _ (i / 2) h

lemma verifyChain_mod (ps : List Digest) :
    ∀ (a : Digest) (i : Nat), verifyChain a i ps = verifyChain a (i % 2 ^ ps.length) ps := by
  induction ps with
  | nil => intro a i; rfl
  | cons p ps ih =>
      intro a i
      have h2 : (2 : Nat) ∣ 2 ^ (ps.length + 1) := dvd_pow_self 2 (Nat.succ_ne_zero _)
      have hpar : i % 2 ^ (ps.length + 1) % 2 = i % 2 := Nat.mod_mod_of_dvd i h2
      have hdiv : i % 2 ^ (ps.length + 1) / 2 = i / 2 % 2 ^ ps.length := by
        have : (2 : Nat) ^ (ps.length + 1) = 2 * 2 ^ ps.length := by ring
        rw [this, Nat.mod_mul_right_div_self]
      simp only [verifyChain, List.length_cons, hpar, hdiv]
      rw [ih _ (i / 2)]

/-- C10: with an empty sibling list, `verifyProof(h, [], i, r)` holds exactly
when the leaf hash equals the claimed root; the claimed index is never
consulted, so every index value is accepted for a single-leaf proof. -/
theorem C10_empty_proof_accepts_any_index (h : Digest) (i : Nat) (r : Digest) :
    verifyProof h [] i r = true ↔ h = r := by
  simp [verifyProof, verifyChain]

/-- C4 counterexample: a verifying quadruple stays verifying after the
claimed index is changed from 0 to 2, so index tampering is not always
detected as the claim states. -/
theorem C4_counterexample_index_change_accepted :
    verifyProof (Digest.ofString "L") [Digest.ofString "S"] 0
        (Digest.comb (Digest.ofString "L") (Digest.ofString "S")) = true ∧
      verifyProof (Digest.ofString "L") [Digest.ofString "S"] 2
        (Digest.comb (Digest.ofString "L") (Digest.ofString "S")) = true ∧
      (2 : Nat) ≠ 0 := by
  decide

/-- C4 (amended): on a verifying quadruple, altering the leaf hash, any
single sibling, or the claimed root makes `verifyProof` return false (under
the collision-free idealization of SHA-256); altering the claimed index is
detected only up to its residue modulo `2 ^ (number of siblings)` — any
index with the same residue (in particular, any index at all when the
sibling list is empty) is still accepted. -/
theorem C4_tamper_detection_amended (leaf root : Digest) (siblings : List Digest) (idx : Nat)
    (hv : verifyProof leaf siblings idx root = true) :
    (∀ leaf2, leaf2 ≠ leaf → verifyProof leaf2 siblings idx root = false) ∧
    (∀ (j : Nat) (hj : j < siblings.length) (s2 : Digest), s2 ≠ siblings.get ⟨j, hj⟩ →
        verifyProof leaf (siblings.set j s2) idx root = false) ∧
    (∀ root2, root2 ≠ root → verifyProof leaf siblings idx root2 = false) ∧
    (∀ idx2, idx2 % 2 ^ siblings.length = idx % 2 ^ siblings.length →
        verifyProof leaf siblings idx2 root = true) := by
  have hv2 : verifyChain leaf idx siblings = root := by
    simpa [verifyProof] using hv
  refine ⟨?_, ?_, ?_, ?_⟩
  · intro leaf2 hne
    simp only [verifyProof, beq_eq_false_iff_ne, ne_eq]
    intro hcontra
    exact hne (verifyChain_inj siblings idx _ _ (hcontra.trans hv2.symm))
  · intro j hj s2 hs
    simp only [verifyProof, beq_eq_false_iff_ne, ne_eq]
    intro hcontra
    exact verifyChain_set_ne siblings j hj s2 hs leaf idx (hcontra.trans hv2.symm)
  · intro root2 hne
    simp only [verifyProof, beq_eq_false_iff_ne, ne_eq, hv2]
    exact fun hcontra => hne hcontra.symm
  · intro idx2 hmod
    have : verifyChain leaf idx2 siblings = verifyChain leaf idx siblings := by
      rw [verifyChain_mod siblings leaf idx2, verifyChain_mod siblings leaf idx, hmod]
    simp [verifyProof, this, hv2]

/-- C4 witness: the amended theorem applied to the one-sibling quadruple
used in the counterexample. -/
theorem C4_tamper_detection_amended_witness :
    verifyProof (Digest.ofString "L") [Digest.ofString "S"] 0
        (Digest.comb (Digest.ofString "L") (Digest.ofString "S")) = true ∧
      verifyProof (Digest.ofString "X") [Digest.ofString "S"] 0
        (Digest.comb (Digest.ofString "L") (Digest.ofString "S")) = false :=
  ⟨by decide,
    ((C4_tamper_detection_amended (Digest.ofString "L")
        (Digest.comb (Digest.ofString "L") (Digest.ofString "S"))
        [Digest.ofString "S"] 0 (by decide)).1 (Digest.ofString "X") (by decide))⟩

/-- C1 (code bug): proof soundness fails at the third append.  After serially
appending A, B, C to an empty ledger, the leaves at indices 0 and 1 still
verify against the roots returned at their insertion, but leaf 2's stored
proof — generated by the very append that inserted it — fails `verifyProof`
against the root that append returned: the source's guard
`sibling !== left || i + 1 < currentLevel.length` skips pushing the
self-duplicated sibling, leaving the proof one element short. -/
theorem C1_proof_soundness_fails_at_third_append :
    ((runAppends [Json.str "A", Json.str "B", Json.str "C"]).2.map
        (fun r => (getProof (runAppends [Json.str "A", Json.str "B", Json.str "C"]).1 r.index).map
          (fun p => verifyProof p.leaf p.proof p.leafIndex r.root)))
      = [some true, some true, some false] := by
  decide

/-- C2 (code bug): appending A, B, C yields the claimed root
`combine(combine(hash A, hash B), combine(hash C, hash C))` (the odd last
hash is duplicated when the root is computed), but the proof stored for C is
the one-element sequence `[combine(hash A, hash B)]`, not the claimed
two-element sequence `[hash C, combine(hash A, hash B)]`: the duplicated
self-sibling is skipped by the proof-generation guard. -/
theorem C2_root_matches_but_proof_misses_duplicate :
    (runAppends [Json.str "A", Json.str "B", Json.str "C"]).2.getLast? =
        some { index := 2,
               root := Digest.comb
                 (Digest.comb (Digest.ofString "\"A\"") (Digest.ofString "\"B\""))
                 (Digest.comb (Digest.ofString "\"C\"") (Digest.ofString "\"C\"")),
               leaf := Digest.ofString "\"C\"" } ∧
      ((runAppends [Json.str "A", Json.str "B", Json.str "C"]).1.map (·.proof)).getLast? =
        some [Digest.comb (Digest.ofString "\"A\"") (Digest.ofString "\"B\"")] ∧
      ([Digest.comb (Digest.ofString "\"A\"") (Digest.ofString "\"B\"")] : List Digest) ≠
        [Digest.ofString "\"C\"",
         Digest.comb (Digest.ofString "\"A\"") (Digest.ofString "\"B\"")] := by
  decide

/-- C3 (code bug): a later append does not leave earlier leaves unchanged.
After appending A alone, `getProof(0)` returns proof `[]` with root
`hash(A)` and that pair verifies; after a second append of B,
`updateRootForAllLeaves` has overwritten leaf 0's stored root with the new
root `combine(hash A, hash B)` while leaving its proof `[]` untouched, so
`getProof(0)` returns a different pair than at insertion time and that pair
no longer verifies. -/
theorem C3_earlier_leaf_root_overwritten :
    getProof (runAppends [Json.str "A"]).1 0 =
        some { leaf := Digest.ofString "\"A\"", proof := [], leafIndex := 0,
               root := Digest.ofString "\"A\"" } ∧
      verifyProof (Digest.ofString "\"A\"") [] 0 (Digest.ofString "\"A\"") = true ∧
      getProof (runAppends [Json.str "A", Json.str "B"]).1 0 =
        some { leaf := Digest.ofString "\"A\"", proof := [], leafIndex := 0,
               root := Digest.comb (Digest.ofString "\"A\"") (Digest.ofString "\"B\"") } ∧
      Digest.comb (Digest.ofString "\"A\"") (Digest.ofString "\"B\"") ≠ Digest.ofString "\"A\"" ∧
      verifyProof (Digest.ofString "\"A\"") [] 0
        (Digest.comb (Digest.ofString "\"A\"") (Digest.ofString "\"B\"")) = false := by
  decide

lemma map_index_updateRoot (L : List StoredLeaf) (r : Digest) :
    (updateRootForAllLeaves L r).map (·.index) = L.map (·.index) := by
  simp only [updateRootForAllLeaves, List.map_map]
  rfl

lemma ledger_getLast_index (ledger : List StoredLeaf) (k : Nat)
    (hidx : ledger.map (·.index) = List.range (k + 1)) :
    ∃ l, ledger.getLast? = some l ∧ l.index = k := by
  have h1 : (ledger.map (·.index)).getLast? = some k := by
    rw [hidx, List.range_succ]
    simp
  rw [List.getLast?_map] at h1
  cases hl : ledger.getLast? with
  | none => rw [hl] at h1; simp at h1
  | some l =>
      rw [hl] at h1
      simp at h1
      exact ⟨l, rfl, h1⟩

lemma appendLeaf_index_step (ledger : List StoredLeaf) (d : Json) (k : Nat)
    (hidx : ledger.map (·.index) = List.range k) :
    (appendLeaf ledger d LeafKind.batch none none).2.index = k ∧
    (appendLeaf ledger d LeafKind.batch none none).1.map (·.index) = List.range (k + 1) := by
  cases k with
  | zero =>
      have hled : ledger = [] := by
        have hlen := congrArg List.length hidx
        simp at hlen
        exact hlen
      subst hled
      refine ⟨by simp [appendLeaf], ?_⟩
      simp [appendLeaf, map_index_updateRoot, List.range_succ]
  | succ j =>
      obtain ⟨l, hl, hli⟩ := ledger_getLast_index ledger j hidx
      refine ⟨by simp [appendLeaf, hl, hli], ?_⟩
      simp [appendLeaf, hl, hli, map_index_updateRoot, List.range_succ, hidx]

lemma runAppendsFrom_indices (datas : List Json) :
    ∀ (ledger : List StoredLeaf) (k : Nat), ledger.map (·.index) = List.range k →
      (runAppendsFrom ledger datas).1.map (·.index) = List.range (k + datas.length) ∧
      (runAppendsFrom ledger datas).2.map (·.index) = List.range' k datas.length := by
  induction datas with
  | nil =>
      intro ledger k h
      simpa [runAppendsFrom] using h
  | cons d ds ih =>
      intro ledger k h
      have ha := appendLeaf_index_step ledger d k h
      have hih := ih (appendLeaf ledger d LeafKind.batch none none).1 (k + 1) ha.2
      refine ⟨?_, ?_⟩
      · simp only [runAppendsFrom]
        rw [hih.1]
        congr 1
        simp [List.length_cons]
        omega
      · simp only [runAppendsFrom, List.map_cons]
        rw [ha.1, hih.2]
        rfl

/-- C6: under serial execution, the indices returned by N `append` calls are
exactly 0, 1, ..., N-1 in order (hence the set has no duplicates and no
gaps), and after every append the stored leaf indices are the dense
zero-based sequence 0, ..., N-1. -/
theorem C6_dense_index_assignment (datas : List Json) :
    (runAppends datas).2.map (·.index) = List.range datas.length ∧
    (runAppends datas).1.map (·.index) = List.range datas.length := by
  have h := runAppendsFrom_indices datas [] 0 (by simp)
  refine ⟨?_, ?_⟩
  · simp only [runAppends]
    rw [h.2, List.range_eq_range']
  · simpa [runAppends] using h.1

/-- C7: whenever the batch is found, the signature check passes (or no
signed payload was supplied), and the Merkle inclusion check passes, the
route answers `verified = true` whatever the anchor lookup does, and when
the anchor lookup throws or finds no anchor transaction the mode is
`merkle` — an unanchored root downgrades the mode, never the verdict. -/
theorem C7_anchor_check_never_rejects (batchFound qrSupplied sigValid merkleValid : Bool)
    (anchorTx : Except Unit (Option String))
    (hb : batchFound = true) (hs : qrSupplied = true → sigValid = true)
    (hm : merkleValid = true) :
    (verifyRoute batchFound qrSupplied sigValid merkleValid anchorTx).verified = true ∧
    ((anchorTx = Except.error () ∨ anchorTx = Except.ok none) →
      (verifyRoute batchFound qrSupplied sigValid merkleValid anchorTx).mode =
        VerifyMode.merkle) := by
  subst hb hm
  have hsv : qrSupplied = false ∨ sigValid = true := by
    cases qrSupplied
    · exact Or.inl rfl
    · exact Or.inr (hs rfl)
  refine ⟨?_, ?_⟩
  · rcases hsv with h | h <;> subst h <;>
      cases anchorTx with
      | error e => simp [verifyRoute, verifyBlockchainAnchor]
      | ok o => cases o <;> simp [verifyRoute, verifyBlockchainAnchor]
  · rintro (rfl | rfl) <;> rcases hsv with h | h <;> subst h <;>
      simp [verifyRoute, verifyBlockchainAnchor]

/-- C7 witness: a found batch with valid signature and inclusion proof whose
anchor lookup reports no transaction is still verified, in merkle mode. -/
theorem C7_anchor_check_never_rejects_witness :
    (verifyRoute true true true true (Except.ok none)).verified = true ∧
    (verifyRoute true true true true (Except.ok none)).mode = VerifyMode.merkle :=
  ⟨(C7_anchor_check_never_rejects true true true true (Except.ok none) rfl
      (fun _ => rfl) rfl).1,
   (C7_anchor_check_never_rejects true true true true (Except.ok none) rfl
      (fun _ => rfl) rfl).2 (Or.inr rfl)⟩

/-- True exactly on signature wire values the library cannot decode. -/
def sigMalformed : SigW → Bool
  | SigW.good _ _ => false
  | SigW.malformed _ => true

/-- True exactly on public-key wire values the library cannot decode. -/
def pubMalformed : PubW → Bool
  | PubW.good _ => false
  | PubW.malformed _ => true

/-- C9: `verifySignature` is total — its catch-all handler converts every
library error on malformed signature or key material into the value
`false`, so malformed input always yields `false` and nothing propagates. -/
theorem C9_verify_total_malformed_yields_false (data : String) (sig : SigW) (pubKey : PubW)
    (h : sigMalformed sig = true ∨ pubMalformed pubKey = true) :
    verifySignature data sig pubKey = false := by
  cases sig <;> cases pubKey <;>
    simp_all [verifySignature, ecdsaVerify, sigMalformed, pubMalformed]

/-- C9 witness: a malformed signature over a valid key yields `false`. -/
theorem C9_verify_total_malformed_yields_false_witness :
    sigMalformed (SigW.malformed "zz") = true ∧
    verifySignature "data" (SigW.malformed "zz") (PubW.good 7) = false :=
  ⟨rfl, C9_verify_total_malformed_yields_false "data" (SigW.malformed "zz") (PubW.good 7)
      (Or.inl rfl)⟩

lemma generateKeyPair_spec (cands : List Nat) (priv pub : Nat)
    (h : generateKeyPair cands = some (priv, pub)) :
    privateKeyVerify priv = true ∧ pub = publicKeyCreate priv := by
  induction cands with
  | nil => simp [generateKeyPair] at h
  | cons c cs ih =>
      by_cases hc : privateKeyVerify c = true
      · simp [generateKeyPair, hc] at h
        obtain ⟨h1, h2⟩ := h
        subst h1
        subst h2
        exact ⟨hc, rfl⟩
      · simp [generateKeyPair, hc] at h
        exact ih h

/-- C8: for every message and every key pair produced by `generateKeyPair`,
signing the message and verifying the triple succeeds, and verification
fails once the message, the signature, or the public key is altered (under
the ideal model of the ECDSA primitives). -/
theorem C8_signature_roundtrip (cands : List Nat) (priv pub : Nat) (msg : String)
    (hk : generateKeyPair cands = some (priv, pub)) :
    signData msg priv = Except.ok (SigW.good (Digest.ofString msg) pub) ∧
    verifySignature msg (SigW.good (Digest.ofString msg) pub) (PubW.good pub) = true ∧
    (∀ msg2, msg2 ≠ msg →
      verifySignature msg2 (SigW.good (Digest.ofString msg) pub) (PubW.good pub) = false) ∧
    (∀ sig2 : SigW, sig2 ≠ SigW.good (Digest.ofString msg) pub →
      verifySignature msg sig2 (PubW.good pub) = false) ∧
    (∀ pub2 : PubW, pub2 ≠ PubW.good pub →
      verifySignature msg (SigW.good (Digest.ofString msg) pub) pub2 = false) := by
  obtain ⟨hp, hpub⟩ := generateKeyPair_spec cands priv pub hk
  refine ⟨by simp [signData, hp, hpub], by simp [verifySignature, ecdsaVerify], ?_, ?_, ?_⟩
  · intro msg2 hne
    simp [verifySignature, ecdsaVerify]
    exact fun hcontra => hne hcontra.symm
  · intro sig2 hne
    cases sig2 with
    | malformed s => simp [verifySignature, ecdsaVerify]
    | good h2 p2 =>
        have hnp : ¬(h2 = Digest.ofString msg ∧ p2 = pub) := by
          rintro ⟨rfl, rfl⟩
          exact hne rfl
        simp only [verifySignature, ecdsaVerify]
        rcases Decidable.em (h2 = Digest.ofString msg) with he | he
        · have hp2 : p2 ≠ pub := fun hq => hnp ⟨he, hq⟩
          simp [he, hp2]
        · simp [he]
  · intro pub2 hne
    cases pub2 with
    | malformed s => simp [verifySignature, ecdsaVerify]
    | good q =>
        have hq : pub ≠ q := fun h => hne (by rw [h])
        simp [verifySignature, ecdsaVerify, hq]

/-- C8 witness: the round trip and alteration checks at the concrete key
pair drawn from candidate scalar 1 and message "m". -/
theorem C8_signature_roundtrip_witness :
    generateKeyPair [1] = some (1, 1) ∧
    signData "m" 1 = Except.ok (SigW.good (Digest.ofString "m") 1) ∧
    verifySignature "m" (SigW.good (Digest.ofString "m") 1) (PubW.good 1) = true :=
  ⟨by decide,
   (C8_signature_roundtrip [1] 1 1 "m" (by decide)).1,
   (C8_signature_roundtrip [1] 1 1 "m" (by decide)).2.1⟩

lemma charsLe_refl (l : List Char) : charsLe l l = true := by
  induction l with
  | nil => rfl
  | cons c cs ih => simp [charsLe, ih]

lemma strLe_refl (s : String) : strLe s s = true :=
  charsLe_refl s.data

lemma ne_of_strLe_false (k k2 : String) (h : strLe k k2 = false) : k ≠ k2 := by
  intro hcontra
  subst hcontra
  rw [strLe_refl] at h
  exact Bool.noConfusion h

lemma pairsLookup_selFields : ∀ (fs : JsonFields) (allow : List String) (key : String),
    pairsLookup (selFields allow fs) key = (lookupField fs key).map (stringifySel allow)
  | .nil, _, _ => rfl
  | .cons k v fs, allow, key => by
      simp only [selFields, pairsLookup, lookupField]
      by_cases h : key = k
      · simp [h]
      · simp [h, pairsLookup_selFields fs allow key]

lemma lookupField_insertField : ∀ (gs : JsonFields) (k : String) (v : Json) (key : String),
    lookupField (insertField k v gs) key =
      if key = k then some v else lookupField gs key
  | .nil, k, v, key => by simp [insertField, lookupField]
  | .cons k2 v2 gs, k, v, key => by
      simp only [insertField]
      by_cases hle : strLe k k2 = true
      · simp [hle, lookupField]
      · have hne : k ≠ k2 := ne_of_strLe_false k k2 (by simpa using hle)
        rw [if_neg (by simp [hle])]
        simp only [lookupField, lookupField_insertField gs k v key]
        by_cases h1 : key = k <;> by_cases h2 : key = k2 <;> simp_all

lemma lookupField_canonFields : ∀ (fs : JsonFields) (key : String),
    lookupField (canonFields fs) key = (lookupField fs key).map canonJson
  | .nil, _ => rfl
  | .cons k v fs, key => by
      simp only [canonFields, lookupField_insertField, lookupField,
        lookupField_canonFields fs key]
      by_cases h : key = k <;> simp [h]

lemma keysOf_insertField : ∀ (gs : JsonFields) (k : String) (v : Json),
    keysOf (insertField k v gs) = insertKey k (keysOf gs)
  | .nil, k, v => rfl
  | .cons k2 v2 gs, k, v => by
      simp only [insertField, insertKey, keysOf]
      by_cases hle : strLe k k2 = true
      · simp [hle, keysOf]
      · rw [if_neg (by simp [hle]), if_neg (by simp [hle])]
        simp [keysOf, keysOf_insertField gs k v]

lemma keysOf_canonFields : ∀ (fs : JsonFields),
    keysOf (canonFields fs) = jsSort (keysOf fs)
  | .nil => rfl
  | .cons k v fs => by
      simp [canonFields, keysOf, jsSort, keysOf_insertField, keysOf_canonFields fs]

lemma indexKeysFrom_canonList : ∀ (xs : JsonList) (i : Nat),
    indexKeysFrom i (canonList xs) = indexKeysFrom i xs
  | .nil, _ => rfl
  | .cons x xs, i => by simp [canonList, indexKeysFrom, indexKeysFrom_canonList xs (i + 1)]

lemma joinSel_congr (allow : List String) (ps qs : List (String × String))
    (h : ∀ k, pairsLookup ps k = pairsLookup qs k) : joinSel allow ps = joinSel allow qs := by
  simp only [joinSel]
  congr 1
  induction allow with
  | nil => rfl
  | cons k ks ih => simp [List.filterMap_cons, h k, ih]

-- Canonicalizing a value (sorting every object's fields by key) does not
-- change its replacer-based serialization: `stringifySel` reads object
-- fields only through key lookup, which `insertField` preserves.
mutual
theorem stringifySel_canon : ∀ (j : Json) (allow : List String),
    stringifySel allow (canonJson j) = stringifySel allow j
  | .str _, _ => rfl
  | .num _, _ => rfl
  | .bool _, _ => rfl
  | .null, _ => rfl
  | .arr xs, allow => by
      simp only [canonJson, stringifySel]
      rw [selList_canon xs allow]
  | .obj fs, allow => by
      simp only [canonJson, stringifySel]
      have hj : joinSel allow (selFields allow (canonFields fs)) =
          joinSel allow (selFields allow fs) := by
        apply joinSel_congr
        intro key
        rw [pairsLookup_selFields, pairsLookup_selFields, lookupField_canonFields]
        cases hv : lookupField fs key with
        | none => rfl
        | some v =>
            simp [lookupField_canon_value fs key v hv allow]
      rw [hj]

theorem selList_canon : ∀ (xs : JsonList) (allow : List String),
    selList allow (canonList xs) = selList allow xs
  | .nil, _ => rfl
  | .cons x xs, allow => by
      simp only [canonList, selList]
      rw [stringifySel_canon x allow, selList_canon xs allow]

theorem lookupField_canon_value : ∀ (fs : JsonFields) (key : String) (v : Json),
    lookupField fs key = some v →
      ∀ allow, stringifySel allow (canonJson v) = stringifySel allow v
  | .nil, key, v => by
      intro h
      simp [lookupField] at h
  | .cons k w fs, key, v => by
      intro h allow
      simp only [lookupField] at h
      by_cases hk : key = k
      · rw [if_pos hk] at h
        cases h
        exact stringifySel_canon w allow
      · rw [if_neg hk] at h
        exact lookupField_canon_value fs key v h allow
end

lemma sortKeys_eq_of_canon (j j2 : Json) (hc : canonJson j = canonJson j2) :
    jsSort (topKeys j) = jsSort (topKeys j2) := by
  cases j with
  | str s => cases j2 <;> simp_all [canonJson, topKeys]
  | num n => cases j2 <;> simp_all [canonJson, topKeys]
  | bool b => cases j2 <;> simp_all [canonJson, topKeys]
  | null => cases j2 <;> simp_all [canonJson, topKeys]
  | arr xs =>
      cases j2 with
      | arr ys =>
          simp only [canonJson, Json.arr.injEq] at hc
          have hx : indexKeysFrom 0 xs = indexKeysFrom 0 ys := by
            rw [← indexKeysFrom_canonList xs 0, hc, indexKeysFrom_canonList]
          simp [topKeys, hx]
      | str s => simp [canonJson] at hc
      | num n => simp [canonJson] at hc
      | bool b => simp [canonJson] at hc
      | null => simp [canonJson] at hc
      | obj gs => simp [canonJson] at hc
  | obj fs =>
      cases j2 with
      | obj gs =>
          simp only [canonJson, Json.obj.injEq] at hc
          have hx := congrArg keysOf hc
          rw [keysOf_canonFields, keysOf_canonFields] at hx
          simpa [topKeys] using hx
      | str s => simp [canonJson] at hc
      | num n => simp [canonJson] at hc
      | bool b => simp [canonJson] at hc
      | null => simp [canonJson] at hc
      | arr ys => simp [canonJson] at hc

/-- C5 counterexample: the two records with key/value set a↦1, b↦2 built in
opposite insertion orders serialize to different bytes under the plain
`JSON.stringify` that `appendLeaf` hashes, so the append leaf hashes of the
two records differ — while `hashData` (which sorts the keys) agrees on
them.  The claim's assertion that the byte serialization hashed by append
is insertion-order independent and equal to the `hashData` value is
therefore false. -/
theorem C5_counterexample_append_hash_order_dependent :
    jsonStringify (Json.obj (.cons "a" (Json.num 1) (.cons "b" (Json.num 2) .nil))) ≠
      jsonStringify (Json.obj (.cons "b" (Json.num 2) (.cons "a" (Json.num 1) .nil))) ∧
    appendLeafHash (Json.obj (.cons "a" (Json.num 1) (.cons "b" (Json.num 2) .nil))) ≠
      appendLeafHash (Json.obj (.cons "b" (Json.num 2) (.cons "a" (Json.num 1) .nil))) ∧
    hashData (Json.obj (.cons "a" (Json.num 1) (.cons "b" (Json.num 2) .nil))) =
      hashData (Json.obj (.cons "b" (Json.num 2) (.cons "a" (Json.num 1) .nil))) := by
  decide

/-- C5 (amended): `hashData` (and hence `createBatchHash`, which feeds it a
fixed-order object) hashes identical bytes for any two records with
identical key/value sets at every nesting level — formalized as equality of
the recursively key-sorted canonical forms; the leaf hash computed by
`appendLeaf`, by contrast, serializes fields in insertion order, so the
claim's equality for the append leaf hash does not hold (see the
counterexample). -/
theorem C5_hashData_canonicalization_determinism (j j2 : Json)
    (hc : canonJson j = canonJson j2) : hashData j = hashData j2 := by
  have hkeys := sortKeys_eq_of_canon j j2 hc
  have hser : stringifySel (jsSort (topKeys j2)) j = stringifySel (jsSort (topKeys j2)) j2 := by
    rw [← stringifySel_canon j, hc, stringifySel_canon j2]
  cases j with
  | str s => cases j2 <;> simp_all [canonJson, hashData]
  | num n =>
      cases j2 <;>
        first
          | (simp [canonJson] at hc; done)
          | (simp only [hashData]; rw [hkeys, hser])
  | bool b =>
      cases j2 <;>
        first
          | (simp [canonJson] at hc; done)
          | (simp only [hashData]; rw [hkeys, hser])
  | null =>
      cases j2 <;>
        first
          | (simp [canonJson] at hc; done)
          | (simp only [hashData])
  | arr xs =>
      cases j2 <;>
        first
          | (simp [canonJson] at hc; done)
          | (simp only [hashData]; rw [hkeys, hser])
  | obj fs =>
      cases j2 <;>
        first
          | (simp [canonJson] at hc; done)
          | (simp only [hashData]; rw [hkeys, hser])

/-- C5 witness: the determinism theorem applied to the two permuted
two-field records of the counterexample. -/
theorem C5_hashData_canonicalization_determinism_witness :
    canonJson (Json.obj (.cons "a" (Json.num 1) (.cons "b" (Json.num 2) .nil))) =
      canonJson (Json.obj (.cons "b" (Json.num 2) (.cons "a" (Json.num 1) .nil))) ∧
    hashData (Json.obj (.cons "a" (Json.num 1) (.cons "b" (Json.num 2) .nil))) =
      hashData (Json.obj (.cons "b" (Json.num 2) (.cons "a" (Json.num 1) .nil))) :=
  ⟨rfl,
   C5_hashData_canonicalization_determinism
     (Json.obj (.cons "a" (Json.num 1) (.cons "b" (Json.num 2) .nil)))
     (Json.obj (.cons "b" (Json.num 2) (.cons "a" (Json.num 1) .nil))) rfl⟩
